import Mathlib

/-!
Verification of the log reassembly and highlighting core of `dlog.py`
(`stream_logs`, source lines 73-176).

Python strings are modelled as `List Char`.  The pieces of the Python `re`
module that the source uses are modelled on the exact fragment the source
exercises: patterns built from literal characters, backslash escapes, the
`.` wildcard and the `\d` class.  Patterns outside this fragment are mapped
to `none`, which models the `re.error` exception Python raises for the
concrete patterns appearing in the theorems below (for example the pattern
consisting of a single opening parenthesis).
-/

/-- Python strings, modelled as lists of characters. -/
abbrev Str := List Char

/-- The `\033[93m` start marker from `COLOR_YELLOW` (source line 16). -/
def YELLOW : Str := ['\x1b', '[', '9', '3', 'm']

/-- The `\033[0m` end marker from `COLOR_RESET` (source line 18). -/
def RESET : Str := ['\x1b', '[', '0', 'm']

/-- Tokens of the modelled regex fragment: a literal character, the `.`
wildcard, and the `\d` digit class. -/
inductive Tok where
  | lit (c : Char)
  | anyChar
  | digit
deriving DecidableEq, Repr

/-- Character comparison, optionally case-insensitive (models the effect of
`re.IGNORECASE` on literal characters, source line 94). -/
def charEqIC (ic : Bool) (c d : Char) : Bool :=
  if ic then c.toLower == d.toLower else c == d

/-- Whether one token accepts one character.  The `.` wildcard does not
accept a newline (Python default, no `re.DOTALL`). -/
def tokMatch (ic : Bool) (t : Tok) (c : Char) : Bool :=
  match t with
  | .lit k => charEqIC ic k c
  | .anyChar => c != '\n'
  | .digit => c.isDigit

/-- Anchored match of a token list against the start of a string
(models `Pattern.match` at offset 0). -/
def matchToksAt (ic : Bool) : List Tok → Str → Bool
  | [], _ => true
  | _ :: _, [] => false
  | t :: ts, c :: cs => tokMatch ic t c && matchToksAt ic ts cs

/-- Unanchored search: the token list matches at some offset
(models `re.search` on an already compiled pattern). -/
def searchToks (ic : Bool) (ts : List Tok) : Str → Bool
  | [] => matchToksAt ic ts []
  | c :: cs => matchToksAt ic ts (c :: cs) || searchToks ic ts cs

/-- Pattern characters with a regex meaning outside the modelled fragment.
A bare occurrence of one of these is mapped to a compile failure; for the
concrete patterns used below this matches Python, where for example
`re.search("(", s)` raises `re.error` (missing closing parenthesis). -/
def metaChars : Str := ['(', ')', '[', ']', '{', '}', '?', '*', '+', '|', '^', '$']

/-- Compilation of a pattern string into tokens, modelling `re.compile` on
the fragment the source exercises: a trailing backslash is an error (as in
Python), `\d` is the digit class, a backslash before an alphanumeric other
than `d` is outside the fragment, a backslash before punctuation is a
literal, `.` is the wildcard, and any other non-special character is a
literal. -/
def compile : Str → Option (List Tok)
  | [] => some []
  | c :: rest =>
    if c = '\\' then
      match rest with
      | [] => none
      | d :: rest2 =>
        if d = 'd' then (compile rest2).map (Tok.digit :: ·)
        else if d.isAlphanum then none
        else (compile rest2).map (Tok.lit d :: ·)
    else if c = '.' then (compile rest).map (Tok.anyChar :: ·)
    else if c ∈ metaChars then none
    else (compile rest).map (Tok.lit c :: ·)

/-- The characters escaped by Python 3.7+ `re.escape`. -/
def reSpecial : Str :=
  ['(', ')', '[', ']', '{', '}', '?', '*', '+', '-', '|', '^', '$', '\\', '.',
   '&', '~', '#', ' ', '\t', '\n', '\r', '\x0b', '\x0c']

/-- Models `re.escape` (used in the three `re.sub` calls of the source):
every special character is preceded by a backslash. -/
def pyEscape (s : Str) : Str :=
  s.flatMap (fun c => if c ∈ reSpecial then ['\\', c] else [c])

/-- Models `re.search(keyword, line, flags)` at source line 125: the raw
keyword is compiled as a pattern (note: NOT escaped) and searched in the
line; `none` models a raised `re.error`. -/
def pySearch (pat : Str) (ic : Bool) (line : Str) : Option Bool :=
  (compile pat).map (fun ts => searchToks ic ts line)

/-- Literal, optionally case-insensitive match of `kw` against the start of
a string. -/
def litMatchAt (ic : Bool) : Str → Str → Bool
  | [], _ => true
  | _ :: _, [] => false
  | c :: ks, d :: ss => charEqIC ic c d && litMatchAt ic ks ss

/-- Modelled from the spec (section 4.2): the literal substring test — the
keyword occurs somewhere in the line as a literal substring, optionally
case-insensitively. -/
def litOccurs (ic : Bool) (kw : Str) : Str → Bool
  | [] => kw.isEmpty
  | c :: rest => litMatchAt ic kw (c :: rest) || litOccurs ic kw rest

/-- Fuel-indexed worker for the highlighter.  Models
`re.sub(f'({re.escape(keyword)})', YELLOW + \1 + RESET, line, flags)`
(source lines 114-119, 137-142, 146-151, 158-163): since the pattern is the
escaped keyword it is a literal, so the sub scans left to right, wraps each
non-overlapping occurrence of the keyword in the markers (the group `\1`
reproduces the matched text of the line itself), and copies every other
character.  The fuel only drives the recursion; it is always called with
fuel equal to the length of the string, which suffices because every step
consumes at least one character (the keyword is non-empty on every path
that highlights, since an empty keyword takes the pass-through branch at
source line 106). -/
def hlF (kw : Str) (ic : Bool) : Nat → Str → Str
  | 0, s => s
  | _ + 1, [] => []
  | f + 1, c :: rest =>
    if !kw.isEmpty && litMatchAt ic kw (c :: rest) then
      YELLOW ++ (c :: rest).take kw.length ++ RESET ++ hlF kw ic f ((c :: rest).drop kw.length)
    else
      c :: hlF kw ic f rest

/-- The highlight transform of the source (see `hlF`). -/
def pyHighlight (kw : Str) (ic : Bool) (s : Str) : Str :=
  hlF kw ic s.length s

/-- Fuel-indexed worker for `stripMarkers`. -/
def stripF : Nat → Str → Str
  | 0, s => s
  | _ + 1, [] => []
  | f + 1, c :: rest =>
    if litMatchAt false YELLOW (c :: rest) then stripF f ((c :: rest).drop YELLOW.length)
    else if litMatchAt false RESET (c :: rest) then stripF f ((c :: rest).drop RESET.length)
    else c :: stripF f rest

/-- Modelled from the spec (section 4.3 round-trip): removes every
occurrence of the start and end markers, scanning left to right. -/
def stripMarkers (s : Str) : Str :=
  stripF s.length s

/-- Models `re.compile(r'^\d{4}-\d{2}-\d{2}')` (source line 96) with the
counted repetitions expanded. -/
def datePat : List Tok :=
  [.digit, .digit, .digit, .digit, .lit '-', .digit, .digit, .lit '-', .digit, .digit]

/-- Models `bool(date_pattern.match(line))` (source line 104): anchored
match of the date pattern at offset 0, case-sensitively. -/
def dateMatch (line : Str) : Bool :=
  matchToksAt false datePat line

/-- Modelled from the spec (section 4.1): the line's first ten characters
are four digits, a hyphen, two digits, a hyphen and two digits. -/
def isHeaderSpec : Str → Bool
  | d1 :: d2 :: d3 :: d4 :: h1 :: d5 :: d6 :: h2 :: d7 :: d8 :: _ =>
    d1.isDigit && (d2.isDigit && (d3.isDigit && (d4.isDigit && (charEqIC false '-' h1 &&
      (d5.isDigit && (d6.isDigit && (charEqIC false '-' h2 && (d7.isDigit && d8.isDigit))))))))
  | _ => false

/-- The mutable loop state of `stream_logs` (source lines 99-100).
`prevIdx` is a ghost field recording the 0-based input position of the
buffered line; it has no influence on control flow (the source branches on
the truthiness of `previous_line`, modelled as `previous_line ≠ []`) and
is meaningful only while `previous_line` is non-empty. -/
structure StreamState where
  previous_line : Str
  previous_line_matches : Bool
  prevIdx : Nat
deriving DecidableEq, Repr

/-- The initial state: `previous_line = ""`, `previous_line_matches = False`. -/
def initState : StreamState := ⟨[], false, 0⟩

/-- Truthiness of the optional keyword (`if not keyword`, source line 106). -/
def kwTruthy : Option Str → Bool
  | none => false
  | some k => !k.isEmpty

/-- One iteration of the `for line in iter(...)` loop (source lines
102-153), as a function from the incoming line and state to the new state
and the list of emitted `(source index, text)` pairs, in emission order.
The source's first block (lines 111-122: flush the buffered line when a new
header arrives) is inlined into the two `is_new_log_entry` branches: when
the line is a header the block's state reset is subsumed by the
unconditional reassignment at lines 129-130, and when it is not a header
the block does not run. -/
def streamStep (keyword : Option Str) (toks : List Tok) (ic : Bool)
    (idx : Nat) (line : Str) (st : StreamState) : StreamState × List (Nat × Str) :=
  let is_new_log_entry := dateMatch line
  if !kwTruthy keyword then (st, [(idx, line)])
  else
    let kw := keyword.getD []
    let flush1 : List (Nat × Str) :=
      if is_new_log_entry && !st.previous_line.isEmpty && st.previous_line_matches then
        [(st.prevIdx, pyHighlight kw ic st.previous_line)]
      else []
    let current_line_matches := searchToks ic toks line
    if is_new_log_entry then (⟨line, current_line_matches, idx⟩, flush1)
    else if st.previous_line_matches || current_line_matches then
      (⟨[], true, st.prevIdx⟩,
        (if !st.previous_line.isEmpty then [(st.prevIdx, pyHighlight kw ic st.previous_line)]
         else [])
          ++ [(idx, pyHighlight kw ic line)])
    else (st, [])

/-- The whole loop over the remaining input lines, threading the state and
the 0-based index of the next line, collecting emissions in order. -/
def runStream (keyword : Option Str) (toks : List Tok) (ic : Bool) :
    Nat → StreamState → List Str → StreamState × List (Nat × Str)
  | _, st, [] => (st, [])
  | idx, st, line :: rest =>
    let r1 := streamStep keyword toks ic idx line st
    let r2 := runStream keyword toks ic (idx + 1) r1.1 rest
    (r2.1, r1.2 ++ r2.2)

/-- The final flush after the loop (source lines 156-164): if a line is
still buffered and marked as matching, emit it highlighted. -/
def finalFlush (kw : Str) (ic : Bool) (st : StreamState) : List (Nat × Str) :=
  if !st.previous_line.isEmpty && st.previous_line_matches then
    [(st.prevIdx, pyHighlight kw ic st.previous_line)]
  else []

/-- Loop plus final flush, keeping the ghost indices. -/
def runAll (keyword : Option Str) (toks : List Tok) (ic : Bool)
    (lines : List Str) : List (Nat × Str) :=
  (runStream keyword toks ic 0 initState lines).2
    ++ finalFlush (keyword.getD []) ic (runStream keyword toks ic 0 initState lines).1

/-- The observable behaviour of `stream_logs` (source lines 73-176) on a
given finite line sequence: the list of emitted lines, or `none` when the
run aborts with an exception.  When the keyword is truthy it is compiled
once here (in the source the identical compilation happens inside the first
`re.search` call, so an invalid pattern raises on the first processed line,
before anything is printed; with no input lines `re.search` is never
reached and the run ends normally with no output). -/
def stream_logs (keyword : Option Str) (ic : Bool) (lines : List Str) : Option (List Str) :=
  if kwTruthy keyword then
    match compile (keyword.getD []) with
    | none => if lines.isEmpty then some [] else none
    | some toks => some ((runAll keyword toks ic lines).map Prod.snd)
  else some ((runAll keyword [] ic lines).map Prod.snd)

/-- Ghost invariant of the loop state with respect to the full input
`allL` and the position `idx0` of the next line to be read: a buffered
line lies strictly before the next position and is literally one of the
input lines. -/
def StInv (allL : List Str) (idx0 : Nat) (st : StreamState) : Prop :=
  st.previous_line ≠ [] → st.prevIdx < idx0 ∧ allL[st.prevIdx]? = some st.previous_line

/-- Lower bound for the source indices the loop can still emit: the index
of the buffered line if one is buffered, else the next input position. -/
def emitLB (idx0 : Nat) (st : StreamState) : Nat :=
  if st.previous_line = [] then idx0 else st.prevIdx

/-! ## Supporting lemmas -/

/-- With an untruthy keyword the loop emits every line verbatim and never
touches the state. -/
theorem runStream_untruthy (keyword : Option Str) (toks : List Tok) (ic : Bool)
    (h : kwTruthy keyword = false) :
    ∀ (lines : List Str) (idx : Nat) (st : StreamState),
      (runStream keyword toks ic idx st lines).1 = st ∧
      (runStream keyword toks ic idx st lines).2.map Prod.snd = lines := by
  intro lines
  induction lines with
  | nil => intro idx st; exact ⟨rfl, rfl⟩
  | cons l rest ih =>
    intro idx st
    have h2 := ih (idx + 1) st
    simp [runStream, streamStep, h, h2.1, h2.2]

/-! ## Claim theorems -/

/-- C6: the Line Classifier returns true iff the line's first 10 characters
are four digits, hyphen, two digits, hyphen, two digits at offset zero,
with no calendar validation; it is a total function. -/
theorem classifier_matches_date_shape : ∀ L : Str, dateMatch L = isHeaderSpec L := by
  intro L
  rcases L with _ | ⟨c0, _ | ⟨c1, _ | ⟨c2, _ | ⟨c3, _ | ⟨c4, _ | ⟨c5, _ | ⟨c6, _ |
    ⟨c7, _ | ⟨c8, _ | ⟨c9, L⟩⟩⟩⟩⟩⟩⟩⟩⟩⟩ <;>
      simp [dateMatch, datePat, matchToksAt, tokMatch, isHeaderSpec]

/-- C7: with no keyword configured (absent or empty), processing is
pass-through: the output equals the input exactly and the buffering
machinery is never engaged. -/
theorem no_keyword_passthrough (keyword : Option Str) (ic : Bool) (lines : List Str)
    (h : keyword = none ∨ keyword = some []) :
    stream_logs keyword ic lines = some lines := by
  have hT : kwTruthy keyword = false := by rcases h with rfl | rfl <;> rfl
  have h2 := runStream_untruthy keyword [] ic hT lines 0 initState
  have h3 : finalFlush (keyword.getD []) ic initState = [] := rfl
  simp only [stream_logs, hT, Bool.false_eq_true, if_false, runAll]
  rw [h2.1, h3]
  simp [h2.2]

/-- C7 witness: pass-through on a concrete two-line input with no keyword. -/
theorem no_keyword_passthrough_witness :
    stream_logs none false ["alpha".data, "beta".data] = some ["alpha".data, "beta".data] :=
  no_keyword_passthrough none false ["alpha".data, "beta".data] (Or.inl rfl)

/-- C1 counterexample: on the spec's stickiness example only TWO lines are
emitted, not three — the continuation line that arrived before any match
was already discarded and is not retroactively recovered. -/
theorem stickiness_drops_prematch_continuation :
    ((stream_logs (some "ERROR".data) false
        ["2024-01-01 INFO start".data, "  at foo()".data, "  at bar(): ERROR".data]).getD
      []).length = 2 := by decide

/-- C1 amended: on that input the buffered header line and the matching
third line are emitted (the match retroactively justifies flushing the
header), while the second continuation line, discarded before any match
existed, is not emitted. -/
theorem stickiness_emits_header_and_matching_line :
    stream_logs (some "ERROR".data) false
        ["2024-01-01 INFO start".data, "  at foo()".data, "  at bar(): ERROR".data]
      = some ["2024-01-01 INFO start".data,
              "  at bar(): ".data ++ YELLOW ++ "ERROR".data ++ RESET] := by decide

/-- C2: the per-line test of the source compiles the keyword as an
UNESCAPED regex (line 125), so the keyword `a.b` matches the line `axb`
even though `a.b` does not occur in it as a literal substring. -/
theorem matcher_unescaped_regex_bug :
    pySearch "a.b".data false "axb".data = some true ∧
    litOccurs false "a.b".data "axb".data = false := by decide

/-- C3: the per-line match test is not total over keywords: the keyword
consisting of a single opening parenthesis is an invalid pattern, so the
first `re.search` call raises and the run aborts with no output. -/
theorem matcher_invalid_regex_raises :
    compile "(".data = none ∧
    stream_logs (some "(".data) false ["2024-01-01 boot".data] = none := by decide

/-- C5: matcher and highlighter disagree: the keyword `a.b` matches the
line `axb` under the matcher's unescaped-regex test, yet the highlighter
(which escapes the keyword) leaves the line unchanged — the emitted line
contains no highlighted span. -/
theorem match_without_highlight_bug :
    pySearch "a.b".data false "axb".data = some true ∧
    pyHighlight "a.b".data false "axb".data = "axb".data ∧
    stream_logs (some "a.b".data) false ["axb".data] = some ["axb".data] := by decide

/-- C4 counterexample: for a line that already contains the start marker
text and a keyword that does not occur in it, the highlighter leaves the
line unchanged but stripping the markers erases the line's own marker
text, so the round-trip fails. -/
theorem roundtrip_fails_on_marker_line :
    pyHighlight "z".data false "\x1b[93m".data = "\x1b[93m".data ∧
    stripMarkers (pyHighlight "z".data false "\x1b[93m".data) ≠ "\x1b[93m".data := by decide

/-- The fuel of `stripF` is irrelevant as long as it covers the length of
the string. -/
theorem stripF_fuel (f : Nat) : ∀ (g : Nat) (s : Str),
    s.length ≤ f → s.length ≤ g → stripF f s = stripF g s := by
  induction f with
  | zero =>
    intro g s hf _
    have hs : s = [] := List.length_eq_zero.mp (Nat.le_zero.mp hf)
    subst hs; cases g <;> rfl
  | succ f ih =>
    intro g s hf hg
    cases s with
    | nil => cases g <;> rfl
    | cons c rest =>
      cases g with
      | zero => simp at hg
      | succ g =>
        simp only [stripF]
        by_cases h1 : litMatchAt false YELLOW (c :: rest) = true
        · rw [if_pos h1, if_pos h1]
          exact ih g _
            (by simp only [List.length_drop, List.length_cons, YELLOW, RESET,
              List.length_nil] at hf ⊢; omega)
            (by simp only [List.length_drop, List.length_cons, YELLOW, RESET,
              List.length_nil] at hg ⊢; omega)
        · rw [if_neg h1, if_neg h1]
          by_cases h2 : litMatchAt false RESET (c :: rest) = true
          · rw [if_pos h2, if_pos h2]
            exact ih g _
              (by simp only [List.length_drop, List.length_cons, YELLOW, RESET,
                List.length_nil] at hf ⊢; omega)
              (by simp only [List.length_drop, List.length_cons, YELLOW, RESET,
                List.length_nil] at hg ⊢; omega)
          · rw [if_neg h2, if_neg h2,
              ih g rest (by simp only [List.length_cons] at hf; omega)
                (by simp only [List.length_cons] at hg; omega)]

/-- The fuel of `hlF` is irrelevant as long as it covers the length of the
string. -/
theorem hlF_fuel (kw : Str) (ic : Bool) (f : Nat) : ∀ (g : Nat) (s : Str),
    s.length ≤ f → s.length ≤ g → hlF kw ic f s = hlF kw ic g s := by
  induction f with
  | zero =>
    intro g s hf _
    have hs : s = [] := List.length_eq_zero.mp (Nat.le_zero.mp hf)
    subst hs; cases g <;> rfl
  | succ f ih =>
    intro g s hf hg
    cases s with
    | nil => cases g <;> rfl
    | cons c rest =>
      cases g with
      | zero => simp at hg
      | succ g =>
        simp only [hlF]
        by_cases h1 : (!kw.isEmpty && litMatchAt ic kw (c :: rest)) = true
        · have hk : 0 < kw.length := by
            rcases Bool.and_eq_true .. |>.mp h1 with ⟨hk1, _⟩
            have : kw ≠ [] := by simpa using hk1
            exact List.length_pos.mpr this
          rw [if_pos h1, if_pos h1]
          congr 1
          exact ih g _ (by simp only [List.length_drop, List.length_cons] at hf ⊢; omega)
            (by simp only [List.length_drop, List.length_cons] at hg ⊢; omega)
        · rw [if_neg h1, if_neg h1,
            ih g rest (by simp only [List.length_cons] at hf; omega)
              (by simp only [List.length_cons] at hg; omega)]

/-- Unfolding: highlighting at a position where the keyword matches wraps
the matched characters of the line in the markers and continues after
them. -/
theorem pyHighlight_pos (kw : Str) (ic : Bool) (c : Char) (rest : Str)
    (h1 : kw ≠ []) (h2 : litMatchAt ic kw (c :: rest) = true) :
    pyHighlight kw ic (c :: rest) =
      YELLOW ++ (c :: rest).take kw.length ++ RESET
        ++ pyHighlight kw ic ((c :: rest).drop kw.length) := by
  have hk : (!kw.isEmpty && litMatchAt ic kw (c :: rest)) = true := by
    simp [h2, h1]
  have hkl : 0 < kw.length := List.length_pos.mpr h1
  show hlF kw ic (rest.length + 1) (c :: rest) = _
  rw [hlF, if_pos hk]
  simp only [List.append_assoc]
  congr 3
  exact hlF_fuel kw ic _ _ _
    (by simp only [List.length_drop, List.length_cons]; omega) (le_refl _)

/-- Unfolding: when the keyword does not match at this position the
character is copied unchanged. -/
theorem pyHighlight_neg (kw : Str) (ic : Bool) (c : Char) (rest : Str)
    (h2 : (!kw.isEmpty && litMatchAt ic kw (c :: rest)) = false) :
    pyHighlight kw ic (c :: rest) = c :: pyHighlight kw ic rest := by
  show hlF kw ic (rest.length + 1) (c :: rest) = _
  rw [hlF, if_neg (by simp [h2])]
  rfl

/-- Stripping removes a leading start marker. -/
theorem stripMarkers_yellow (s : Str) : stripMarkers (YELLOW ++ s) = stripMarkers s := by
  have hm : litMatchAt false YELLOW ('\x1b' :: '[' :: '9' :: '3' :: 'm' :: s) = true := by
    simp [YELLOW, litMatchAt, charEqIC]
  show stripF (s.length + 1 + 1 + 1 + 1 + 1) ('\x1b' :: '[' :: '9' :: '3' :: 'm' :: s)
    = stripMarkers s
  rw [stripF, if_pos hm]
  show stripF (s.length + 1 + 1 + 1 + 1) s = stripMarkers s
  exact stripF_fuel _ _ _ (by omega) (le_refl _)

/-- Stripping removes a leading end marker (which is not a start marker). -/
theorem stripMarkers_reset (s : Str) : stripMarkers (RESET ++ s) = stripMarkers s := by
  have hy : litMatchAt false YELLOW ('\x1b' :: '[' :: '0' :: 'm' :: s) = false := by
    simp [YELLOW, litMatchAt, charEqIC]
  have hr : litMatchAt false RESET ('\x1b' :: '[' :: '0' :: 'm' :: s) = true := by
    simp [RESET, litMatchAt, charEqIC]
  show stripF (s.length + 1 + 1 + 1 + 1) ('\x1b' :: '[' :: '0' :: 'm' :: s) = stripMarkers s
  rw [stripF, if_neg (by simp [hy]), if_pos hr]
  show stripF (s.length + 1 + 1 + 1) s = stripMarkers s
  exact stripF_fuel _ _ _ (by omega) (le_refl _)

/-- Stripping keeps a character that cannot start a marker. -/
theorem stripMarkers_cons (c : Char) (s : Str) (h : c ≠ '\x1b') :
    stripMarkers (c :: s) = c :: stripMarkers s := by
  have hb : ('\x1b' == c) = false := beq_eq_false_iff_ne.mpr (Ne.symm h)
  have hy : litMatchAt false YELLOW (c :: s) = false := by
    simp [YELLOW, litMatchAt, charEqIC, hb]
  have hr : litMatchAt false RESET (c :: s) = false := by
    simp [RESET, litMatchAt, charEqIC, hb]
  show stripF (s.length + 1) (c :: s) = _
  rw [stripF, if_neg (by simp [hy]), if_neg (by simp [hr])]
  rfl

/-- Stripping passes unchanged over a block of marker-free characters. -/
theorem stripMarkers_append (t : Str) (s : Str) (h : ∀ c ∈ t, c ≠ '\x1b') :
    stripMarkers (t ++ s) = t ++ stripMarkers s := by
  induction t with
  | nil => simp
  | cons c t ih =>
    simp only [List.cons_append]
    rw [stripMarkers_cons _ _ (h c (by simp)), ih (fun d hd => h d (by simp [hd]))]

/-- C4 amended: for every non-empty keyword and every line in which the
escape character does not occur, stripping all start and end markers from
the highlighted line reproduces the line exactly (the highlighter wraps
occurrences in markers and leaves every other character unchanged). -/
theorem highlight_strip_roundtrip (kw : Str) (ic : Bool) (s : Str)
    (hkw : kw ≠ []) (hs : ∀ c ∈ s, c ≠ '\x1b') :
    stripMarkers (pyHighlight kw ic s) = s := by
  have main : ∀ (n : Nat) (s : Str), s.length ≤ n → (∀ c ∈ s, c ≠ '\x1b') →
      stripMarkers (pyHighlight kw ic s) = s := by
    intro n
    induction n with
    | zero =>
      intro s h _
      have hs0 : s = [] := List.length_eq_zero.mp (Nat.le_zero.mp h)
      subst hs0; rfl
    | succ n ih =>
      intro s hlen hesc
      cases s with
      | nil => rfl
      | cons c rest =>
        have hkl : 0 < kw.length := List.length_pos.mpr hkw
        by_cases hm : litMatchAt ic kw (c :: rest) = true
        · rw [pyHighlight_pos kw ic c rest hkw hm]
          simp only [List.append_assoc]
          rw [stripMarkers_yellow,
            stripMarkers_append _ _ (fun d hd => hesc d (List.take_subset _ _ hd)),
            stripMarkers_reset,
            ih _ (by simp only [List.length_drop, List.length_cons] at hlen ⊢; omega)
              (fun d hd => hesc d (List.drop_subset _ _ hd))]
          exact List.take_append_drop _ _
        · have h0 : litMatchAt ic kw (c :: rest) = false := by
            revert hm; cases litMatchAt ic kw (c :: rest) <;> simp
          rw [pyHighlight_neg kw ic c rest (by simp [h0]),
            stripMarkers_cons _ _ (hesc c (by simp)),
            ih rest (by simp only [List.length_cons] at hlen; omega)
              (fun d hd => hesc d (by simp [hd]))]
  exact main s.length s (le_refl _) hs

/-- C4 witness: the round-trip on a concrete line with two occurrences of
the keyword and a trailing newline. -/
theorem highlight_strip_roundtrip_witness :
    stripMarkers (pyHighlight "ERROR".data false "x ERROR then ERROR!\n".data)
      = "x ERROR then ERROR!\n".data :=
  highlight_strip_roundtrip "ERROR".data false "x ERROR then ERROR!\n".data
    (by decide) (by decide)

/-- A line classified as a header is non-empty. -/
theorem dateMatch_ne_nil (line : Str) (h : dateMatch line = true) : line ≠ [] := by
  intro h0; subst h0; simp [dateMatch, datePat, matchToksAt] at h

/-- Boolean non-emptiness test versus propositional non-emptiness. -/
theorem neg_isEmpty_iff (l : Str) : (!l.isEmpty) = true ↔ l ≠ [] := by
  cases l <;> simp

/-- Under the state invariant the emission lower bound never exceeds the
next input position. -/
theorem emitLB_le (allL : List Str) (idx0 : Nat) (st : StreamState)
    (h : StInv allL idx0 st) : emitLB idx0 st ≤ idx0 := by
  by_cases hp : st.previous_line = []
  · simp [emitLB, hp]
  · simp only [emitLB, hp, if_false]
    exact Nat.le_of_lt (h hp).1

/-- The emission lower bound is monotone in the input position. -/
theorem emitLB_mono (idx0 : Nat) (st : StreamState) :
    emitLB idx0 st ≤ emitLB (idx0 + 1) st := by
  by_cases hp : st.previous_line = [] <;> simp [emitLB, hp]

/-- Branch-level description of `streamStep` for a truthy keyword. -/
theorem streamStep_truthy (kw : Str) (toks : List Tok) (ic : Bool)
    (idx : Nat) (line : Str) (st : StreamState) (hkw : kw ≠ []) :
    streamStep (some kw) toks ic idx line st =
      if dateMatch line then
        (⟨line, searchToks ic toks line, idx⟩,
          if !st.previous_line.isEmpty && st.previous_line_matches then
            [(st.prevIdx, pyHighlight kw ic st.previous_line)]
          else [])
      else if st.previous_line_matches || searchToks ic toks line then
        (⟨[], true, st.prevIdx⟩,
          (if !st.previous_line.isEmpty then
             [(st.prevIdx, pyHighlight kw ic st.previous_line)]
           else [])
            ++ [(idx, pyHighlight kw ic line)])
      else (st, []) := by
  cases hd : dateMatch line <;> simp [streamStep, kwTruthy, hkw, hd]

/-- Main loop invariant.  For a truthy keyword, running the loop from a
state satisfying the ghost invariant over the remaining input yields:
emitted source indices strictly increasing; every emission at least the
current lower bound and equal to the highlighted text of the input line at
its index; the ghost invariant preserved; every emission strictly before
the finally buffered line's index; and a monotone lower bound. -/
theorem runStream_spec (kw : Str) (toks : List Tok) (ic : Bool) (allL : List Str)
    (hkw : kw ≠ []) :
    ∀ (rest : List Str) (idx0 : Nat) (st : StreamState),
      allL.drop idx0 = rest → StInv allL idx0 st →
      List.Pairwise (· < ·) ((runStream (some kw) toks ic idx0 st rest).2.map Prod.fst)
      ∧ (∀ p ∈ (runStream (some kw) toks ic idx0 st rest).2,
          emitLB idx0 st ≤ p.1 ∧
          ∃ l, allL[p.1]? = some l ∧ p.2 = pyHighlight kw ic l)
      ∧ StInv allL (idx0 + rest.length) (runStream (some kw) toks ic idx0 st rest).1
      ∧ ((runStream (some kw) toks ic idx0 st rest).1.previous_line ≠ [] →
          ∀ p ∈ (runStream (some kw) toks ic idx0 st rest).2,
            p.1 < (runStream (some kw) toks ic idx0 st rest).1.prevIdx)
      ∧ emitLB idx0 st ≤ emitLB (idx0 + rest.length) (runStream (some kw) toks ic idx0 st rest).1 := by
  intro rest
  induction rest with
  | nil =>
    intro idx0 st hdrop hinv
    refine ⟨by simp [runStream], by simp [runStream], ?_, by simp [runStream], ?_⟩
    · simpa [runStream] using hinv
    · simp [runStream]
  | cons line rest ih =>
    intro idx0 st hdrop hinv
    have hline : allL[idx0]? = some line := by
      have h0 : (allL.drop idx0)[0]? = some line := by rw [hdrop]; simp
      rw [List.getElem?_drop] at h0
      simpa using h0
    have hdrop2 : allL.drop (idx0 + 1) = rest := by
      have h1 := congrArg (List.drop 1) hdrop
      rw [List.drop_drop] at h1
      simpa [Nat.add_comm] using h1
    have hlen : idx0 + (line :: rest).length = (idx0 + 1) + rest.length := by
      simp only [List.length_cons]; omega
    cases hd : dateMatch line with
    | true =>
      have hne : line ≠ [] := dateMatch_ne_nil line hd
      have hinv1 : StInv allL (idx0 + 1)
          (⟨line, searchToks ic toks line, idx0⟩ : StreamState) := by
        intro _
        exact ⟨Nat.lt_succ_self idx0, hline⟩
      obtain ⟨IH1, IH2, IH3, IH4, IH5⟩ :=
        ih (idx0 + 1) ⟨line, searchToks ic toks line, idx0⟩ hdrop2 hinv1
      have hLB1 : emitLB (idx0 + 1)
          (⟨line, searchToks ic toks line, idx0⟩ : StreamState) = idx0 := by
        simp [emitLB, hne]
      cases hc : (!st.previous_line.isEmpty && st.previous_line_matches) with
      | true =>
        have hpne : st.previous_line ≠ [] := by
          have h1 := (Bool.and_eq_true _ _).mp hc
          exact (neg_isEmpty_iff _).mp h1.1
        have hpi := hinv hpne
        have hstep : streamStep (some kw) toks ic idx0 line st =
            (⟨line, searchToks ic toks line, idx0⟩,
             [(st.prevIdx, pyHighlight kw ic st.previous_line)]) := by
          rw [streamStep_truthy kw toks ic idx0 line st hkw]
          simp [hd, hc]
        simp only [runStream, hstep, List.cons_append, List.nil_append]
        refine ⟨?_, ?_, ?_, ?_, ?_⟩
        · rw [List.map_cons]
          refine List.Pairwise.cons ?_ IH1
          intro b hb
          rcases List.mem_map.mp hb with ⟨p, hp, rfl⟩
          have h2 := (IH2 p hp).1
          rw [hLB1] at h2
          exact lt_of_lt_of_le hpi.1 h2
        · intro p hp
          rcases List.mem_cons.mp hp with hp1 | hp2
          · subst hp1
            exact ⟨by simp [emitLB, hpne], st.previous_line, hpi.2, rfl⟩
          · have h2 := IH2 p hp2
            have h2b := h2.1
            rw [hLB1] at h2b
            exact ⟨le_trans (emitLB_le allL idx0 st hinv) h2b, h2.2⟩
        · rw [hlen]; exact IH3
        · intro hfp p hp
          rcases List.mem_cons.mp hp with hp1 | hp2
          · subst hp1
            have h5 := IH5
            rw [hLB1] at h5
            have h6 : emitLB ((idx0 + 1) + rest.length)
                (runStream (some kw) toks ic (idx0 + 1)
                  ⟨line, searchToks ic toks line, idx0⟩ rest).1
                = (runStream (some kw) toks ic (idx0 + 1)
                  ⟨line, searchToks ic toks line, idx0⟩ rest).1.prevIdx := by
              simp [emitLB, hfp]
            rw [h6] at h5
            exact lt_of_lt_of_le hpi.1 h5
          · exact IH4 hfp p hp2
        · rw [hlen]
          have h5 := IH5
          rw [hLB1] at h5
          exact le_trans (emitLB_le allL idx0 st hinv) h5
      | false =>
        have hstep : streamStep (some kw) toks ic idx0 line st =
            (⟨line, searchToks ic toks line, idx0⟩, []) := by
          rw [streamStep_truthy kw toks ic idx0 line st hkw]
          simp [hd, hc]
        simp only [runStream, hstep, List.nil_append]
        refine ⟨IH1, ?_, ?_, ?_, ?_⟩
        · intro p hp
          have h2 := IH2 p hp
          have h2b := h2.1
          rw [hLB1] at h2b
          exact ⟨le_trans (emitLB_le allL idx0 st hinv) h2b, h2.2⟩
        · rw [hlen]; exact IH3
        · intro hfp p hp
          exact IH4 hfp p hp
        · rw [hlen]
          have h5 := IH5
          rw [hLB1] at h5
          exact le_trans (emitLB_le allL idx0 st hinv) h5
    | false =>
      cases hm : (st.previous_line_matches || searchToks ic toks line) with
      | true =>
        have hinv1 : StInv allL (idx0 + 1) (⟨[], true, st.prevIdx⟩ : StreamState) := by
          intro h1
          exact absurd rfl h1
        obtain ⟨IH1, IH2, IH3, IH4, IH5⟩ := ih (idx0 + 1) ⟨[], true, st.prevIdx⟩ hdrop2 hinv1
        have hLB1 : emitLB (idx0 + 1) (⟨[], true, st.prevIdx⟩ : StreamState) = idx0 + 1 := by
          simp [emitLB]
        cases hpe : st.previous_line.isEmpty with
        | true =>
          have hstep : streamStep (some kw) toks ic idx0 line st =
              (⟨[], true, st.prevIdx⟩, [(idx0, pyHighlight kw ic line)]) := by
            rw [streamStep_truthy kw toks ic idx0 line st hkw]
            simp [hd, hm, hpe]
          simp only [runStream, hstep, List.cons_append, List.nil_append]
          refine ⟨?_, ?_, ?_, ?_, ?_⟩
          · rw [List.map_cons]
            refine List.Pairwise.cons ?_ IH1
            intro b hb
            rcases List.mem_map.mp hb with ⟨p, hp, rfl⟩
            have h2 := (IH2 p hp).1
            rw [hLB1] at h2
            exact lt_of_lt_of_le (Nat.lt_succ_self idx0) h2
          · intro p hp
            rcases List.mem_cons.mp hp with hp1 | hp2
            · subst hp1
              exact ⟨emitLB_le allL idx0 st hinv, line, hline, rfl⟩
            · have h2 := IH2 p hp2
              have h2b := h2.1
              rw [hLB1] at h2b
              exact ⟨le_trans (emitLB_le allL idx0 st hinv)
                (le_trans (Nat.le_succ idx0) h2b), h2.2⟩
          · rw [hlen]; exact IH3
          · intro hfp p hp
            rcases List.mem_cons.mp hp with hp1 | hp2
            · subst hp1
              have h5 := IH5
              rw [hLB1] at h5
              have h6 : emitLB ((idx0 + 1) + rest.length)
                  (runStream (some kw) toks ic (idx0 + 1)
                    ⟨[], true, st.prevIdx⟩ rest).1
                  = (runStream (some kw) toks ic (idx0 + 1)
                    ⟨[], true, st.prevIdx⟩ rest).1.prevIdx := by
                simp [emitLB, hfp]
              rw [h6] at h5
              exact lt_of_lt_of_le (Nat.lt_succ_self idx0) h5
            · exact IH4 hfp p hp2
          · rw [hlen]
            have h5 := IH5
            rw [hLB1] at h5
            exact le_trans (emitLB_le allL idx0 st hinv)
              (le_trans (Nat.le_succ idx0) h5)
        | false =>
          have hpne : st.previous_line ≠ [] := by
            intro h1
            rw [h1] at hpe
            simp at hpe
          have hpi := hinv hpne
          have hstep : streamStep (some kw) toks ic idx0 line st =
              (⟨[], true, st.prevIdx⟩,
               [(st.prevIdx, pyHighlight kw ic st.previous_line),
                (idx0, pyHighlight kw ic line)]) := by
            rw [streamStep_truthy kw toks ic idx0 line st hkw]
            simp [hd, hm, hpe]
          simp only [runStream, hstep, List.cons_append, List.nil_append]
          refine ⟨?_, ?_, ?_, ?_, ?_⟩
          · rw [List.map_cons, List.map_cons]
            refine List.Pairwise.cons ?_ (List.Pairwise.cons ?_ IH1)
            · intro b hb
              rcases List.mem_cons.mp hb with hb1 | hb2
              · subst hb1
                exact hpi.1
              · rcases List.mem_map.mp hb2 with ⟨p, hp, rfl⟩
                have h2 := (IH2 p hp).1
                rw [hLB1] at h2
                exact lt_trans hpi.1 (lt_of_lt_of_le (Nat.lt_succ_self idx0) h2)
            · intro b hb
              rcases List.mem_map.mp hb with ⟨p, hp, rfl⟩
              have h2 := (IH2 p hp).1
              rw [hLB1] at h2
              exact lt_of_lt_of_le (Nat.lt_succ_self idx0) h2
          · intro p hp
            rcases List.mem_cons.mp hp with hp1 | hp2
            · subst hp1
              exact ⟨by simp [emitLB, hpne], st.previous_line, hpi.2, rfl⟩
            · rcases List.mem_cons.mp hp2 with hp3 | hp4
              · subst hp3
                exact ⟨emitLB_le allL idx0 st hinv, line, hline, rfl⟩
              · have h2 := IH2 p hp4
                have h2b := h2.1
                rw [hLB1] at h2b
                exact ⟨le_trans (emitLB_le allL idx0 st hinv)
                  (le_trans (Nat.le_succ idx0) h2b), h2.2⟩
          · rw [hlen]; exact IH3
          · intro hfp p hp
            have h5 := IH5
            rw [hLB1] at h5
            have h6 : emitLB ((idx0 + 1) + rest.length)
                (runStream (some kw) toks ic (idx0 + 1)
                  ⟨[], true, st.prevIdx⟩ rest).1
                = (runStream (some kw) toks ic (idx0 + 1)
                  ⟨[], true, st.prevIdx⟩ rest).1.prevIdx := by
              simp [emitLB, hfp]
            rw [h6] at h5
            rcases List.mem_cons.mp hp with hp1 | hp2
            · subst hp1
              exact lt_of_lt_of_le (lt_trans hpi.1 (Nat.lt_succ_self idx0)) h5
            · rcases List.mem_cons.mp hp2 with hp3 | hp4
              · subst hp3
                exact lt_of_lt_of_le (Nat.lt_succ_self idx0) h5
              · exact IH4 hfp p hp4
          · rw [hlen]
            have h5 := IH5
            rw [hLB1] at h5
            exact le_trans (emitLB_le allL idx0 st hinv)
              (le_trans (Nat.le_succ idx0) h5)
      | false =>
        have hinv1 : StInv allL (idx0 + 1) st := by
          intro hp
          exact ⟨Nat.lt_succ_of_lt (hinv hp).1, (hinv hp).2⟩
        obtain ⟨IH1, IH2, IH3, IH4, IH5⟩ := ih (idx0 + 1) st hdrop2 hinv1
        have hstep : streamStep (some kw) toks ic idx0 line st = (st, []) := by
          rw [streamStep_truthy kw toks ic idx0 line st hkw]
          simp [hd, hm]
        simp only [runStream, hstep, List.nil_append]
        refine ⟨IH1, ?_, ?_, ?_, ?_⟩
        · intro p hp
          have h2 := IH2 p hp
          exact ⟨le_trans (emitLB_mono idx0 st) h2.1, h2.2⟩
        · rw [hlen]; exact IH3
        · intro hfp p hp
          exact IH4 hfp p hp
        · rw [hlen]
          exact le_trans (emitLB_mono idx0 st) IH5

/-- Emissions of the whole run (loop plus final flush) carry strictly
increasing source indices, and every emission is the highlighted text of
the input line at its index. -/
theorem runAll_ordered (kw : Str) (toks : List Tok) (ic : Bool) (lines : List Str)
    (hkw : kw ≠ []) :
    List.Pairwise (· < ·) ((runAll (some kw) toks ic lines).map Prod.fst)
    ∧ ∀ p ∈ runAll (some kw) toks ic lines,
        ∃ l, lines[p.1]? = some l ∧ p.2 = pyHighlight kw ic l := by
  have hinv0 : StInv lines 0 initState := by
    intro h
    exact absurd rfl h
  obtain ⟨S1, S2, S3, S4, S5⟩ :=
    runStream_spec kw toks ic lines hkw lines 0 initState (List.drop_zero lines) hinv0
  have hga : runAll (some kw) toks ic lines
      = (runStream (some kw) toks ic 0 initState lines).2
        ++ finalFlush kw ic (runStream (some kw) toks ic 0 initState lines).1 := rfl
  constructor
  · rw [hga, List.map_append, List.pairwise_append]
    refine ⟨S1, ?_, ?_⟩
    · unfold finalFlush
      split <;> simp
    · intro a ha b hb
      rcases List.mem_map.mp ha with ⟨p, hp, rfl⟩
      rcases List.mem_map.mp hb with ⟨q, hq, rfl⟩
      unfold finalFlush at hq
      by_cases hcond :
          (!(runStream (some kw) toks ic 0 initState lines).1.previous_line.isEmpty
            && (runStream (some kw) toks ic 0 initState lines).1.previous_line_matches) = true
      · rw [if_pos hcond] at hq
        simp only [List.mem_singleton] at hq
        subst hq
        have hpne : (runStream (some kw) toks ic 0 initState lines).1.previous_line ≠ [] :=
          (neg_isEmpty_iff _).mp ((Bool.and_eq_true _ _).mp hcond).1
        exact S4 hpne p hp
      · rw [if_neg hcond] at hq
        simp at hq
  · intro p hp
    rw [hga] at hp
    rcases List.mem_append.mp hp with hp1 | hp2
    · exact (S2 p hp1).2
    · unfold finalFlush at hp2
      by_cases hcond :
          (!(runStream (some kw) toks ic 0 initState lines).1.previous_line.isEmpty
            && (runStream (some kw) toks ic 0 initState lines).1.previous_line_matches) = true
      · rw [if_pos hcond] at hp2
        simp only [List.mem_singleton] at hp2
        subst hp2
        have hpne : (runStream (some kw) toks ic 0 initState lines).1.previous_line ≠ [] :=
          (neg_isEmpty_iff _).mp ((Bool.and_eq_true _ _).mp hcond).1
        exact ⟨_, (S3 hpne).2, rfl⟩
      · rw [if_neg hcond] at hp2
        simp at hp2

/-- C8: at stream end, if an entry is pending with its sticky matched flag
set and its header not yet flushed (non-empty buffer), the buffered header
is emitted highlighted after the loop's emissions; otherwise nothing
further is emitted. -/
theorem stream_end_flush (kw : Str) (toks : List Tok) (ic : Bool) (lines : List Str)
    (st : StreamState) (out : List (Nat × Str))
    (hkw : kw ≠ []) (hc : compile kw = some toks)
    (hrun : runStream (some kw) toks ic 0 initState lines = (st, out)) :
    (st.previous_line ≠ [] ∧ st.previous_line_matches = true →
       stream_logs (some kw) ic lines
         = some (out.map Prod.snd ++ [pyHighlight kw ic st.previous_line]))
    ∧ (st.previous_line = [] ∨ st.previous_line_matches = false →
       stream_logs (some kw) ic lines = some (out.map Prod.snd)) := by
  have htr : kwTruthy (some kw) = true := (neg_isEmpty_iff kw).mpr hkw
  constructor
  · rintro ⟨h1, h2⟩
    have h1b : (!st.previous_line.isEmpty) = true := (neg_isEmpty_iff _).mpr h1
    simp [stream_logs, htr, hc, runAll, hrun, finalFlush, h1b, h2]
  · rintro (h1 | h1)
    · simp [stream_logs, htr, hc, runAll, hrun, finalFlush, h1]
    · simp [stream_logs, htr, hc, runAll, hrun, finalFlush, h1]

/-- C8 witness: a stream ending right after a matched header emits exactly
that header, highlighted, at end of stream. -/
theorem stream_end_flush_witness :
    stream_logs (some "ERROR".data) false ["2024-01-01 ERROR x".data]
      = some (([] : List (Nat × Str)).map Prod.snd
          ++ [pyHighlight "ERROR".data false "2024-01-01 ERROR x".data]) :=
  (stream_end_flush "ERROR".data [.lit 'E', .lit 'R', .lit 'R', .lit 'O', .lit 'R'] false
    ["2024-01-01 ERROR x".data] ⟨"2024-01-01 ERROR x".data, true, 0⟩ []
    (by decide) (by decide) (by decide)).1 ⟨by decide, by decide⟩

/-- C9: no source line — in particular no header line — is ever emitted
twice: the source indices of all emissions of a run (loop and final flush
together) are pairwise distinct, because the buffered-header slot is
cleared at first flush. -/
theorem header_flushed_at_most_once (kw : Str) (toks : List Tok) (ic : Bool)
    (lines : List Str) (hkw : kw ≠ []) :
    List.Pairwise (· ≠ ·) ((runAll (some kw) toks ic lines).map Prod.fst) :=
  ((runAll_ordered kw toks ic lines hkw).1).imp (fun h => Nat.ne_of_lt h)

/-- C9 witness: a run in which the header is flushed when stickiness is
established (line 1), further continuation lines are emitted, and a new
header then closes the entry — no index is emitted twice. -/
theorem header_flushed_at_most_once_witness :
    List.Pairwise (· ≠ ·)
      ((runAll (some "ERROR".data) [.lit 'E', .lit 'R', .lit 'R', .lit 'O', .lit 'R'] false
        ["2024-01-01 a".data, "  ERROR".data, "  more".data, "2024-01-02 b".data]).map
          Prod.fst) :=
  header_flushed_at_most_once "ERROR".data
    [.lit 'E', .lit 'R', .lit 'R', .lit 'O', .lit 'R'] false
    ["2024-01-01 a".data, "  ERROR".data, "  more".data, "2024-01-02 b".data] (by decide)

/-- C10: with a (valid, truthy) keyword configured, the output of
`stream_logs` is exactly the emission list of the run; every emission is
the highlight transform of the input line at its source index, and the
source indices are strictly increasing — the output is an order-preserving,
duplication-free selection of highlighted input lines. -/
theorem output_ordered_selection (kw : Str) (toks : List Tok) (ic : Bool)
    (lines : List Str) (hkw : kw ≠ []) (hc : compile kw = some toks) :
    stream_logs (some kw) ic lines = some ((runAll (some kw) toks ic lines).map Prod.snd)
    ∧ List.Pairwise (· < ·) ((runAll (some kw) toks ic lines).map Prod.fst)
    ∧ ∀ p ∈ runAll (some kw) toks ic lines,
        ∃ l, lines[p.1]? = some l ∧ p.2 = pyHighlight kw ic l := by
  have htr : kwTruthy (some kw) = true := (neg_isEmpty_iff kw).mpr hkw
  refine ⟨by simp [stream_logs, htr, hc], ?_, ?_⟩
  · exact (runAll_ordered kw toks ic lines hkw).1
  · exact (runAll_ordered kw toks ic lines hkw).2

/-- C10 witness: the concrete output of a three-line run equals the mapped
emission list of the run. -/
theorem output_ordered_selection_witness :
    stream_logs (some "ERROR".data) false
        ["2024-01-01 a".data, "  ERROR".data, "2024-01-02 b".data]
      = some ((runAll (some "ERROR".data)
          [.lit 'E', .lit 'R', .lit 'R', .lit 'O', .lit 'R'] false
          ["2024-01-01 a".data, "  ERROR".data, "2024-01-02 b".data]).map Prod.snd) :=
  (output_ordered_selection "ERROR".data
    [.lit 'E', .lit 'R', .lit 'R', .lit 'O', .lit 'R'] false
    ["2024-01-01 a".data, "  ERROR".data, "2024-01-02 b".data]
    (by decide) (by decide)).1

/-- Every character escaped by `re.escape` is neither the letter `d` nor
alphanumeric. -/
theorem reSpecial_not_alnum : ∀ c ∈ reSpecial, (c = 'd' → False) ∧ c.isAlphanum = false := by
  decide

/-- Every modelled metacharacter is escaped by `re.escape`. -/
theorem metaChars_special : ∀ c ∈ metaChars, c ∈ reSpecial := by
  decide

/-- The escaped keyword always compiles, to the list of literal tokens of
the keyword: this is why the `re.sub` highlighting of the source is literal
and total, in contrast to the raw `re.search` of line 125. -/
theorem escape_compile : ∀ kw : Str, compile (pyEscape kw) = some (kw.map Tok.lit) := by
  intro kw
  induction kw with
  | nil => rfl
  | cons c kw ih =>
    by_cases hc : c ∈ reSpecial
    · have h1 : pyEscape (c :: kw) = '\\' :: c :: pyEscape kw := by
        simp [pyEscape, hc]
      rw [h1]
      have hd : ¬ c = 'd' := fun h => (reSpecial_not_alnum c hc).1 h
      have ha : c.isAlphanum = false := (reSpecial_not_alnum c hc).2
      rw [compile.eq_def]
      simp [hd, ha, ih]
    · have h1 : pyEscape (c :: kw) = c :: pyEscape kw := by
        simp [pyEscape, hc]
      rw [h1]
      have hb : ¬ c = '\\' := fun h => hc (by rw [h]; decide)
      have hdot : ¬ c = '.' := fun h => hc (by rw [h]; decide)
      have hm : c ∉ metaChars := fun h => hc (metaChars_special c h)
      rw [compile.eq_def]
      simp [hb, hdot, hm, ih]

/-- Anchored matching of an all-literal token list is exactly the literal
keyword test used by the highlighter. -/
theorem litTok_match : ∀ (ic : Bool) (kw s : Str),
    matchToksAt ic (kw.map Tok.lit) s = litMatchAt ic kw s := by
  intro ic kw
  induction kw with
  | nil => intro s; rfl
  | cons c kw ih =>
    intro s
    cases s with
    | nil => rfl
    | cons d ss => simp [matchToksAt, litMatchAt, tokMatch, ih]

/-- Searching an all-literal token list is exactly the literal substring
test of the spec. -/
theorem litTok_search : ∀ (ic : Bool) (kw s : Str),
    searchToks ic (kw.map Tok.lit) s = litOccurs ic kw s := by
  intro ic kw s
  induction s with
  | nil =>
    cases kw with
    | nil => rfl
    | cons c ks => rfl
  | cons d ss ih => simp [searchToks, litOccurs, litTok_match, ih]
